import Mathlib

/-!
Shallow embedding of the `ecm-rs` crate (files `src/ecm.rs` and `src/point.rs`):
Lenstra two-stage elliptic-curve factorization with Suyama parameterization over
Montgomery-form curves.

Modelling conventions, matching the `rug`/GMP semantics used by the source:
* `rug::Integer` is modelled as `ℤ`.  The `%` operator of `rug` is truncated
  remainder (sign of the dividend), modelled as `Int.tmod`.  `pow_mod` and
  `invert` return canonical residues in `[0, n)`, modelled with `Int.emod`.
* `is_probably_prime(reps)` (GMP `mpz_probab_prime_p`, which tests the absolute
  value) is idealized as true primality of the absolute value.
* The seeded PRNG is modelled as an oracle stream `ℕ → ℕ` together with a cursor
  index; `random_below m` consumes one stream value and reduces it into `[0, m)`.
  `random_below` panics when the bound is not positive; panics are a distinguished
  outcome `RunResult.panic` (also used for the `.unwrap()` on `4.invert(n)`, for
  `Vec` index-out-of-bounds when `d < 2`, and for the checked `usize` underflow
  `b1 - 1 - 2*d` in stage 2).
* `primal::Primes::all()` is an ascending stream of primes; it is modelled by
  `nextPrime` / `primeStream`, with the shared, non-resetting stage-2 cursor
  modelled as the next candidate number (`pullPrimes`).  Rust's `take_while`
  consumes (and discards) the first element that fails the predicate; `pullPrimes`
  reproduces this by advancing the cursor past the failing prime.
* The outer driver loop `while n != 1` is given fuel; `none` means that no result
  is produced within the fuel (divergence), while `some .panic` is a crash.
* `d = (b2 as f64).sqrt() as usize` is modelled as `Nat.sqrt b2`; the two agree
  for every `b2 < 2^52`, since the correctly rounded `f64` square root of such
  an integer truncates to the integer square root.
-/

namespace EcmRs

/-- Error type of `ecm.rs` (`enum Error`). -/
inductive Error : Type
  | boundsNotEven
  | boundsTooSmall
  | ecmFailed
  | numberIsPrime
deriving DecidableEq

/-- Outcome of running a piece of Rust code: normal value, `Err` value, or a
panic (an `unwrap`/index/underflow/`random_below` crash). -/
inductive RunResult (α : Type) : Type
  | ok (a : α)
  | err (e : Error)
  | panic
deriving DecidableEq

/-- `struct Point` of `point.rs`: projective XZ coordinates on a Montgomery
curve, together with the curve constant `a_24` and the modulus. -/
structure Point : Type where
  x_cord : ℤ
  z_cord : ℤ
  a_24 : ℤ
  modulus : ℤ
deriving DecidableEq

/-- `Point::add(self, q, diff)` from `point.rs` (differential addition, with
`rug`'s truncated remainder). -/
def Point.add (p q diff : Point) : Point :=
  let u := (p.x_cord - p.z_cord) * (q.x_cord + q.z_cord)
  let v := (p.x_cord + p.z_cord) * (q.x_cord - q.z_cord)
  let ad := u + v
  let subt := u - v
  ⟨(diff.z_cord * ad * ad).tmod p.modulus,
   (diff.x_cord * subt * subt).tmod p.modulus,
   p.a_24, p.modulus⟩

/-- `Point::double(self)` from `point.rs`. -/
def Point.double (p : Point) : Point :=
  let u := (p.x_cord + p.z_cord) ^ 2
  let v := (p.x_cord - p.z_cord) ^ 2
  let di := u - v
  ⟨(u * v).tmod p.modulus,
   ((v + p.a_24 * di) * di).tmod p.modulus,
   p.a_24, p.modulus⟩

/-- Little-endian binary digits of a natural number (fuel-based so that the
kernel can evaluate it; `natBitsAux n n` is the digit list of `n`). -/
def natBitsAux : ℕ → ℕ → List Bool
  | 0, _ => []
  | _ + 1, 0 => []
  | f + 1, m + 1 => decide ((m + 1) % 2 = 1) :: natBitsAux f ((m + 1) / 2)

/-- The bit string `format!("{:b}", k)` of `k ≥ 1`, most significant bit first,
with the leading `1` removed (the `[1..]` slice in `mont_ladder`). -/
def ladderBits (k : ℕ) : List Bool :=
  (natBitsAux k k).reverse.drop 1

/-- `Point::mont_ladder(self, k)` from `point.rs`: Montgomery ladder scalar
multiplication.  The source iterates over the binary digits of `k` after the
leading one; `q` and `r` are updated exactly as in the Rust loop. -/
def Point.mont_ladder (p : Point) (k : ℕ) : Point :=
  ((ladderBits k).foldl
    (fun (qr : Point × Point) (i : Bool) =>
      if i then (qr.2.add qr.1 p, qr.2.double)
      else (qr.1.double, qr.1.add qr.2 p))
    (p, p.double)).1

/-- Fuel-based search for the first prime at or above a candidate (helper for
`nextPrime`; structural recursion so the kernel can evaluate it). -/
def primeSearch : ℕ → ℕ → ℕ
  | 0, c => c
  | f + 1, c => if Nat.Prime c then c else primeSearch f (c + 1)

/-- The least prime strictly greater than `n` (the successor operation of the
ascending prime stream `primal::Primes::all()`).  The fuel `n + 3` is
sufficient by Bertrand's postulate. -/
def nextPrime (n : ℕ) : ℕ := primeSearch (n + 3) (n + 1)

/-- The `i`-th prime (0-indexed), i.e. the prime stream of `primal`. -/
def primeStream : ℕ → ℕ
  | 0 => 2
  | i + 1 => nextPrime (primeStream i)

/-- The first `k` primes, `Primes::all().take(k)`. -/
def firstPrimes (k : ℕ) : List ℕ := (List.range k).map primeStream

/-- All primes `≤ m` in ascending order, `Primes::all().take_while(|p| p <= m)`. -/
def primesUpTo (m : ℕ) : List ℕ :=
  (List.range (m + 1)).filter (fun p => decide (Nat.Prime p))

/-- The stage-1 exponent `k = ∏_{p ≤ b1} p^(b1.ilog(p))` computed before the
curve loop of `ecm_one_factor` (`usize::ilog` is `Nat.log`). -/
def stage1k (b1 : ℕ) : ℕ :=
  (primesUpTo b1).foldl (fun k p => k * p ^ Nat.log p b1) 1

/-- `rug`'s `is_probably_prime` (GMP `mpz_probab_prime_p`, which operates on the
absolute value), idealized as true primality. -/
def isProbablyPrime (n : ℤ) : Bool := decide (Nat.Prime n.natAbs)

/-- Fuel-based extended Euclid: `egcdAux f a b = (x, y, g)` with
`x*a + y*b = g = gcd a b` when the fuel suffices (helper for `invertOpt`). -/
def egcdAux : ℕ → ℕ → ℕ → ℤ × ℤ × ℕ
  | 0, a, _ => (1, 0, a)
  | f + 1, a, b =>
    if b = 0 then (1, 0, a)
    else
      let w := egcdAux f b (a % b)
      (w.2.1, w.1 - (a / b : ℕ) * w.2.1, w.2.2)

/-- `rug`'s `Integer::invert(self, n)`: `some` of the canonical inverse in
`[0, n)` when `self` is invertible mod `n`, `none` otherwise (the `Err` case,
on which callers fall back to `gcd(self, n)`). -/
def invertOpt (a n : ℤ) : Option ℤ :=
  if Int.gcd a n = 1 then
    some (((egcdAux (n.toNat + 1) (a % n).toNat n.toNat).1) % n)
  else none

/-- Suyama's parameterization (lines 96–112 of `ecm.rs`) for a drawn `sigma`:
either a direct-hit factor `gcd(4 u³ v, n)` when `4 u³ v` is not invertible
(`Sum.inl`), or the initial point (with its `a24` and modulus, `Sum.inr`).
`none` models the panic of `Integer::from(4).invert(n).unwrap()` when `4` is
not invertible mod `n`. -/
def suyama (n sigma : ℤ) : Option (ℤ ⊕ Point) :=
  let u := (sigma * sigma - 5).tmod n
  let v := (4 * sigma).tmod n
  let diff := v - u
  let u3 := (u ^ 3).tmod n
  match invertOpt (4 * u3 * v) n with
  | none => some (Sum.inl ((Int.gcd (4 * u3 * v) n : ℕ) : ℤ))
  | some cinv =>
    let c := (((diff ^ 3) % n) * (4 * u + v) * cinv - 2).tmod n
    match invertOpt 4 n with
    | none => none
    | some inv4 => some (Sum.inr ⟨u3, (v ^ 3).tmod n, ((c + 2) * inv4).tmod n, n⟩)

/-- The stage-2 table `s[i] = (2i)·Q` of `ecm_one_factor`: `s[1] = 2Q`,
`s[2] = 4Q`, `s[i] = s[i-1].add(s[1], s[i-2])`.  Index `0` is the `Vec`'s
untouched `Point::default()`. -/
def sTable (q : Point) : ℕ → Point
  | 0 => ⟨0, 0, 0, 0⟩
  | 1 => q.double
  | 2 => q.double.double
  | (i + 3) => (sTable q (i + 2)).add (sTable q 1) (sTable q (i + 1))

/-- The cached products `beta[i] = s[i].x * s[i].z mod n`; `beta[0]` is the
`Vec`'s untouched `Integer::default() = 0`. -/
def betaOf (n : ℤ) (q : Point) (i : ℕ) : ℤ :=
  if i = 0 then 0 else ((sTable q i).x_cord * (sTable q i).z_cord).tmod n

/-- One `take_while(|q| q <= limit)` pull on the shared stage-2 primes cursor,
with structural fuel (so the kernel can evaluate it; `limit + 2` fuel always
suffices, see `pullPrimes`).  The cursor is the next candidate number; a pull
yields the primes in `[cursor, limit]` in order and then consumes (and
discards) the first prime above `limit`, exactly as Rust's `take_while` on a
`by_ref` iterator does.  Returns the yielded primes and the new cursor. -/
def pullPrimesF (limit : ℕ) : ℕ → ℕ → List ℕ × ℕ
  | 0, c => ([], nextPrime (c - 1) + 1)
  | f + 1, c =>
    let p := nextPrime (c - 1)
    if p ≤ limit then
      let rest := pullPrimesF limit f (p + 1)
      (p :: rest.1, rest.2)
    else ([], p + 1)

/-- One cursor pull (see `pullPrimesF`); since each yielded prime advances the
cursor, `limit + 2` fuel is enough for the loop to run to completion. -/
def pullPrimes (limit : ℕ) (c : ℕ) : List ℕ × ℕ :=
  pullPrimesF limit (limit + 2) c

/-- State threaded through the stage-2 window loop: the pair `(t, r)`, the
accumulated product `g`, the shared primes cursor, and (as instrumentation for
stating which primes contribute) the list of `(rr, q)` pairs for which a factor
was multiplied into `g`. -/
structure Stage2St : Type where
  t : Point
  r : Point
  g : ℤ
  cur : ℕ
  pairs : List (ℕ × ℕ)

/-- The body of one stage-2 window `rr` (lines 143–156 of `ecm.rs`): compute
`alpha`, pull primes `q ≤ rr + 2d` from the shared cursor, multiply the factor
`f = (r.x - s[d].x)(r.z + s[d].z) - alpha + beta[(q - rr)/2]` into `g` for each
of them, then swap `t`/`r` and advance `r` by `2d` steps. -/
def stage2Step (n : ℤ) (q : Point) (dd : ℕ) (st : Stage2St) (rr : ℕ) : Stage2St :=
  let two_d := 2 * dd
  let sd := sTable q dd
  let alpha := (st.r.x_cord * st.r.z_cord).tmod n
  let pulled := pullPrimes (rr + two_d) st.cur
  let g' := pulled.1.foldl
    (fun gg qq =>
      (gg * ((st.r.x_cord - sd.x_cord) * (st.r.z_cord + sd.z_cord)
              - alpha + betaOf n q ((qq - rr) / 2))).tmod n)
    st.g
  ⟨st.r, st.t.add sd st.r, g', pulled.2,
   st.pairs ++ pulled.1.map (fun qq => (rr, qq))⟩

/-- Stage 2 of `ecm_one_factor` (lines 126–156 of `ecm.rs`): the improved
standard continuation.  Returns the accumulated product `g` (before the final
`gcd` with `n`) and the list of `(rr, q)` pairs processed.  `dd` is the table
size `d`, `b = b1 - 1`, the windows are `rr = b, b + 2d, …` while `rr < b2`,
and the primes cursor starts at the first prime `≥ b`
(`skip_while(|q| q < b)`). -/
def stage2 (n : ℤ) (q : Point) (dd b1 b2 : ℕ) : ℤ × List (ℕ × ℕ) :=
  let two_d := 2 * dd
  let b := b1 - 1
  let count := (b2 - b + (two_d - 1)) / two_d
  let wins := List.range' b count two_d
  let fin := wins.foldl (stage2Step n q dd)
    ⟨q.mont_ladder (b - two_d), q.mont_ladder b, 1, b, []⟩
  (fin.g, fin.pairs)

/-- The curve loop of `ecm_one_factor` (lines 87–163 of `ecm.rs`):
`while curve <= max_curve`, drawing one `sigma` per iteration from the oracle.
The `while` is compiled to structural recursion on the quantity
`fuel = max_curve + 1 - curve` (which is exactly how many iterations remain,
since each iteration increments `curve` by one); `curve` itself is threaded
as the source's counter, and the result is returned together with its final
value (the number of curves drawn).  Panic outcomes: `random_below` on a
non-positive bound, the `4.invert(n).unwrap()`, and (on entering stage 2) the
`Vec` index-out-of-bounds for `d < 2` or the checked `usize` underflow of
`b1 - 1 - 2 d`. -/
def curveLoop (n : ℤ) (b1 b2 : ℕ) (oracle : ℕ → ℕ) (k dd : ℕ) :
    ℕ → ℕ → ℕ → RunResult ℤ × ℕ
  | 0, curve, _ => (.err .ecmFailed, curve)
  | fuel + 1, curve, idx =>
    let curve' := curve + 1
    if n - 1 ≤ 0 then (.panic, curve')
    else
      let sigma : ℤ := (oracle idx : ℤ) % (n - 1)
      match suyama n sigma with
      | none => (.panic, curve')
      | some (Sum.inl f) => (.ok f, curve')
      | some (Sum.inr q0) =>
        let q := q0.mont_ladder k
        let g : ℤ := (Int.gcd q.z_cord n : ℕ)
        if g ≠ n ∧ g ≠ 1 then (.ok g, curve')
        else if g = n then curveLoop n b1 b2 oracle k dd fuel curve' (idx + 1)
        else if dd < 2 ∨ b1 - 1 < 2 * dd then (.panic, curve')
        else
          let g2 : ℤ := (Int.gcd (stage2 n q dd b1 b2).1 n : ℕ)
          if g2 ≠ n ∧ g2 ≠ 1 then (.ok g2, curve')
          else curveLoop n b1 b2 oracle k dd fuel curve' (idx + 1)

/-- `ecm_one_factor` of `ecm.rs`, instrumented with the final curve counter:
bounds check, primality check, then the curve loop starting at `curve = 0`,
with `k` the stage-1 exponent and `d = ⌊√b2⌋`. -/
def ecmOneFactorAux (n : ℤ) (b1 b2 mc : ℕ) (oracle : ℕ → ℕ) (idx : ℕ) :
    RunResult ℤ × ℕ :=
  if b1 % 2 ≠ 0 ∨ b2 % 2 ≠ 0 then (.err .boundsNotEven, 0)
  else if isProbablyPrime n then (.err .numberIsPrime, 0)
  else curveLoop n b1 b2 oracle (stage1k b1) (Nat.sqrt b2) (mc + 1) 0 idx

/-- `ecm_one_factor` proper (the value the caller sees). -/
def ecm_one_factor (n : ℤ) (b1 b2 mc : ℕ) (oracle : ℕ → ℕ) (idx : ℕ) :
    RunResult ℤ :=
  (ecmOneFactorAux n b1 b2 mc oracle idx).1

/-- The factor multiset `HashMap<Integer, usize>`, as an association list with
distinct keys. -/
abbrev FacMap : Type := List (ℤ × ℕ)

/-- `*factors.entry(f).or_insert(0) += 1`. -/
def bump : FacMap → ℤ → FacMap
  | [], f => [(f, 1)]
  | (p, e) :: rest, f =>
    if p = f then (p, e + 1) :: rest else (p, e) :: bump rest f

/-- The inner driver loop `while n.is_divisible(&factor) { n /= &factor; … }`,
with explicit fuel (`none` = the loop does not terminate, e.g. `factor = ±1`,
or a division-by-zero panic). -/
def divideOut (f : ℤ) : ℕ → ℤ → FacMap → Option (ℤ × FacMap)
  | 0, n, m => if f ∣ n then none else some (n, m)
  | fuel + 1, n, m =>
    if f ∣ n then divideOut f fuel (n / f) (bump m f) else some (n, m)

/-- The trial-division pass of `ecm_with_params` over a list of primes:
`if n.is_divisible_u(prime) { while n.is_divisible(&prime) { … } }`. -/
def trialDivide : List ℕ → ℤ → FacMap → Option (ℤ × FacMap)
  | [], n, m => some (n, m)
  | p :: ps, n, m =>
    if (p : ℤ) ∣ n then
      (divideOut (p : ℤ) (n.natAbs + 1) n m).bind fun w => trialDivide ps w.1 w.2
    else trialDivide ps n m

/-- The ECM loop of `ecm_with_params`: `while n != 1`, calling
`ecm_one_factor` and absorbing its errors with `.unwrap_or(n.clone())`.
Fuel-based; `none` = no result within the fuel, `some .panic` = a panic
propagated out of `ecm_one_factor` or the division loop. -/
def ecmLoop (b1 b2 mc : ℕ) (oracle : ℕ → ℕ) :
    ℕ → ℤ → ℕ → FacMap → Option (RunResult FacMap)
  | 0, _, _, _ => none
  | fuel + 1, n, idx, m =>
    if n = 1 then some (.ok m)
    else
      match ecmOneFactorAux n b1 b2 mc oracle idx with
      | (.panic, _) => some .panic
      | (res, c) =>
        let f := match res with | .ok f => f | _ => n
        (divideOut f (n.natAbs + 1) n m).bind fun w =>
          ecmLoop b1 b2 mc oracle fuel w.1 (idx + c) w.2

/-- `ecm_with_params` of `ecm.rs`: trial division by the first 100000 primes,
then the ECM loop (seeded PRNG modelled by the oracle stream). -/
def ecm_with_params (n : ℤ) (b1 b2 mc : ℕ) (oracle : ℕ → ℕ) (fuel : ℕ) :
    Option (RunResult FacMap) :=
  (trialDivide (firstPrimes 100000) n []).bind fun w =>
    ecmLoop b1 b2 mc oracle fuel w.1 0 w.2

/-- The decimal length `n.to_string().len()` of a `rug` integer (digits of the
absolute value, plus one for the sign of a negative number). -/
def decimalDigits (n : ℤ) : ℕ :=
  (if n < 0 then 1 else 0) +
    (if n.natAbs = 0 then 1 else Nat.log 10 n.natAbs + 1)

/-- `optimal_b1` of `ecm.rs` (a Rust `match` on digit ranges; `0` falls through
to the default arm). -/
def optimal_b1 (d : ℕ) : ℕ :=
  if d = 0 then 2900000000
  else if d ≤ 15 then 2000
  else if d ≤ 20 then 11000
  else if d ≤ 25 then 50000
  else if d ≤ 30 then 250000
  else if d ≤ 35 then 1000000
  else if d ≤ 40 then 3000000
  else if d ≤ 45 then 11000000
  else if d ≤ 50 then 44000000
  else if d ≤ 55 then 110000000
  else if d ≤ 60 then 260000000
  else if d ≤ 65 then 850000000
  else 2900000000

/-- `ecm` of `ecm.rs`: `ecm_with_params` with `B1 = optimal_b1(len)`,
`B2 = 100000`, `max_curve = 200` (and the fixed seed, here the oracle). -/
def ecm (n : ℤ) (oracle : ℕ → ℕ) (fuel : ℕ) : Option (RunResult FacMap) :=
  ecm_with_params n (optimal_b1 (decimalDigits n)) 100000 200 oracle fuel

/-- The product `∏ p^e` over the entries of a factor map. -/
def mapProd (m : FacMap) : ℤ :=
  (m.map fun pe => pe.1 ^ pe.2).prod

/-- `true` unless the outcome is a returned `Err` value. -/
def notErr {α : Type} : Option (RunResult α) → Bool
  | some (.err _) => false
  | _ => true

/-! ### Basic arithmetic lemmas about `rug`'s truncated remainder -/

theorem tmod_bounds {a n : ℤ} (ha : 0 ≤ a) (hn : 0 < n) :
    0 ≤ a.tmod n ∧ a.tmod n < n :=
  ⟨Int.tmod_nonneg n ha, Int.tmod_lt_of_pos a hn⟩

/-- A small non-positive dividend is its own truncated remainder. -/
theorem tmod_of_neg_small {a n : ℤ} (hn : 0 < n) (h1 : -n < a) (h2 : a ≤ 0) :
    a.tmod n = a := by
  have hb : (-a).tmod n = -a := Int.tmod_eq_of_lt (by omega) (by omega)
  have hdiv : (-a).tdiv n = 0 := Int.tdiv_eq_zero_of_lt (by omega) (by omega)
  have hdiv' : a.tdiv n = 0 := by
    have := Int.neg_tdiv a n
    omega
  have := Int.tmod_add_tdiv a n
  rw [hdiv'] at this
  simpa using this

/-! ### Range invariants of the point arithmetic -/

theorem Point.add_bounds (p q diff : Point) (hdx : 0 ≤ diff.x_cord)
    (hdz : 0 ≤ diff.z_cord) (hm : 0 < p.modulus) :
    (0 ≤ (p.add q diff).x_cord ∧ (p.add q diff).x_cord < p.modulus) ∧
    (0 ≤ (p.add q diff).z_cord ∧ (p.add q diff).z_cord < p.modulus) := by
  unfold Point.add
  constructor
  · exact tmod_bounds (by
      have := mul_self_nonneg ((p.x_cord - p.z_cord) * (q.x_cord + q.z_cord)
        + (p.x_cord + p.z_cord) * (q.x_cord - q.z_cord))
      nlinarith) hm
  · exact tmod_bounds (by
      have := mul_self_nonneg ((p.x_cord - p.z_cord) * (q.x_cord + q.z_cord)
        - (p.x_cord + p.z_cord) * (q.x_cord - q.z_cord))
      nlinarith) hm

theorem Point.add_fields (p q diff : Point) :
    (p.add q diff).a_24 = p.a_24 ∧ (p.add q diff).modulus = p.modulus := by
  unfold Point.add
  exact ⟨rfl, rfl⟩

theorem Point.double_bounds (p : Point) (hx : 0 ≤ p.x_cord) (hz : 0 ≤ p.z_cord)
    (ha : 0 ≤ p.a_24) (hm : 0 < p.modulus) :
    (0 ≤ p.double.x_cord ∧ p.double.x_cord < p.modulus) ∧
    (0 ≤ p.double.z_cord ∧ p.double.z_cord < p.modulus) := by
  unfold Point.double
  have hdi : 0 ≤ (p.x_cord + p.z_cord) ^ 2 - (p.x_cord - p.z_cord) ^ 2 := by
    nlinarith
  constructor
  · exact tmod_bounds (mul_nonneg (sq_nonneg _) (sq_nonneg _)) hm
  · exact tmod_bounds
      (mul_nonneg (add_nonneg (sq_nonneg _) (mul_nonneg ha hdi)) hdi) hm

theorem Point.double_fields (p : Point) :
    p.double.a_24 = p.a_24 ∧ p.double.modulus = p.modulus := by
  unfold Point.double
  exact ⟨rfl, rfl⟩

/-- Invariant of the Montgomery ladder fold: both running points keep the
curve constant and modulus of the base point, and their coordinates stay in
`[0, N)`. -/
theorem ladder_fold_bounds (p : Point) (hx : 0 ≤ p.x_cord ∧ p.x_cord < p.modulus)
    (hz : 0 ≤ p.z_cord ∧ p.z_cord < p.modulus)
    (ha : 0 ≤ p.a_24) (hm : 0 < p.modulus) (bits : List Bool) (qr : Point × Point)
    (hq : qr.1.a_24 = p.a_24 ∧ qr.1.modulus = p.modulus ∧
      (0 ≤ qr.1.x_cord ∧ qr.1.x_cord < p.modulus) ∧
      (0 ≤ qr.1.z_cord ∧ qr.1.z_cord < p.modulus))
    (hr : qr.2.a_24 = p.a_24 ∧ qr.2.modulus = p.modulus ∧
      (0 ≤ qr.2.x_cord ∧ qr.2.x_cord < p.modulus) ∧
      (0 ≤ qr.2.z_cord ∧ qr.2.z_cord < p.modulus)) :
    let fin := bits.foldl
      (fun (qr : Point × Point) (i : Bool) =>
        if i then (qr.2.add qr.1 p, qr.2.double)
        else (qr.1.double, qr.1.add qr.2 p))
      qr
    (fin.1.a_24 = p.a_24 ∧ fin.1.modulus = p.modulus ∧
      (0 ≤ fin.1.x_cord ∧ fin.1.x_cord < p.modulus) ∧
      (0 ≤ fin.1.z_cord ∧ fin.1.z_cord < p.modulus)) ∧
    (fin.2.a_24 = p.a_24 ∧ fin.2.modulus = p.modulus ∧
      (0 ≤ fin.2.x_cord ∧ fin.2.x_cord < p.modulus) ∧
      (0 ≤ fin.2.z_cord ∧ fin.2.z_cord < p.modulus)) := by
  induction bits generalizing qr with
  | nil => exact ⟨hq, hr⟩
  | cons bi rest ih =>
    rcases qr with ⟨pq, pr⟩
    obtain ⟨hqa, hqm, hqx, hqz⟩ := hq
    obtain ⟨hra, hrm, hrx, hrz⟩ := hr
    cases bi
    · simp only [List.foldl_cons, if_neg Bool.false_ne_true]
      apply ih
      · refine ⟨(Point.double_fields pq).1.trans hqa, (Point.double_fields pq).2.trans hqm, ?_, ?_⟩
        · have := (Point.double_bounds pq hqx.1 hqz.1 (hqa ▸ ha) (hqm ▸ hm)).1
          rw [hqm] at this; exact this
        · have := (Point.double_bounds pq hqx.1 hqz.1 (hqa ▸ ha) (hqm ▸ hm)).2
          rw [hqm] at this; exact this
      · refine ⟨(Point.add_fields pq pr p).1.trans hqa, (Point.add_fields pq pr p).2.trans hqm, ?_, ?_⟩
        · have := (Point.add_bounds pq pr p hx.1 hz.1 (hqm ▸ hm)).1
          rw [hqm] at this; exact this
        · have := (Point.add_bounds pq pr p hx.1 hz.1 (hqm ▸ hm)).2
          rw [hqm] at this; exact this
    · simp only [List.foldl_cons, if_pos rfl]
      apply ih
      · refine ⟨(Point.add_fields pr pq p).1.trans hra, (Point.add_fields pr pq p).2.trans hrm, ?_, ?_⟩
        · have := (Point.add_bounds pr pq p hx.1 hz.1 (hrm ▸ hm)).1
          rw [hrm] at this; exact this
        · have := (Point.add_bounds pr pq p hx.1 hz.1 (hrm ▸ hm)).2
          rw [hrm] at this; exact this
      · refine ⟨(Point.double_fields pr).1.trans hra, (Point.double_fields pr).2.trans hrm, ?_, ?_⟩
        · have := (Point.double_bounds pr hrx.1 hrz.1 (hra ▸ ha) (hrm ▸ hm)).1
          rw [hrm] at this; exact this
        · have := (Point.double_bounds pr hrx.1 hrz.1 (hra ▸ ha) (hrm ▸ hm)).2
          rw [hrm] at this; exact this

theorem Point.mont_ladder_bounds (p : Point) (k : ℕ)
    (hx : 0 ≤ p.x_cord ∧ p.x_cord < p.modulus)
    (hz : 0 ≤ p.z_cord ∧ p.z_cord < p.modulus)
    (ha : 0 ≤ p.a_24) (hm : 0 < p.modulus) :
    (0 ≤ (p.mont_ladder k).x_cord ∧ (p.mont_ladder k).x_cord < p.modulus) ∧
    (0 ≤ (p.mont_ladder k).z_cord ∧ (p.mont_ladder k).z_cord < p.modulus) := by
  have hd := Point.double_bounds p hx.1 hz.1 ha hm
  have hdf := Point.double_fields p
  have := ladder_fold_bounds p hx hz ha hm (ladderBits k) (p, p.double)
    ⟨rfl, rfl, hx, hz⟩ ⟨hdf.1, hdf.2, hd.1, hd.2⟩
  exact ⟨this.1.2.2.1, this.1.2.2.2⟩

/-! ### Range invariants of the Suyama setup -/
theorem invertOpt_mem {a n : ℤ} (hn : 0 < n) {r : ℤ} (h : invertOpt a n = some r) :
    0 ≤ r ∧ r < n := by
  unfold invertOpt at h
  split at h
  · cases h
    exact ⟨Int.emod_nonneg _ (by omega), Int.emod_lt_of_pos _ hn⟩
  · cases h

theorem suyama_pt_bounds {n sigma : ℤ} (hn : 2 < n) (hs : 3 ≤ sigma) {q0 : Point}
    (h : suyama n sigma = some (Sum.inr q0)) :
    q0.modulus = n ∧ (0 ≤ q0.x_cord ∧ q0.x_cord < n) ∧
    (0 ≤ q0.z_cord ∧ q0.z_cord < n) ∧ (0 ≤ q0.a_24 ∧ q0.a_24 < n) := by
  have hn0 : (0:ℤ) < n := by omega
  unfold suyama at h
  dsimp only at h
  rcases h1 : invertOpt (4 * (((sigma * sigma - 5).tmod n) ^ 3).tmod n * ((4 * sigma).tmod n)) n
    with _ | cinv
  · rw [h1] at h
    simp at h
  · rw [h1] at h
    dsimp only at h
    rcases h2 : invertOpt 4 n with _ | inv4
    · rw [h2] at h
      cases h
    · rw [h2] at h
      injection h with h
      injection h with h
      subst h
      have hu : 0 ≤ (sigma * sigma - 5).tmod n ∧ (sigma * sigma - 5).tmod n < n :=
        tmod_bounds (by nlinarith) hn0
      have hv : 0 ≤ (4 * sigma).tmod n ∧ (4 * sigma).tmod n < n :=
        tmod_bounds (by omega) hn0
      have hu3 : 0 ≤ ((((sigma * sigma - 5).tmod n) ^ 3).tmod n) ∧
          (((sigma * sigma - 5).tmod n) ^ 3).tmod n < n :=
        tmod_bounds (pow_nonneg hu.1 3) hn0
      refine ⟨rfl, hu3, tmod_bounds (pow_nonneg hv.1 3) hn0, ?_⟩
      have hcinv' := invertOpt_mem hn0 h1
      have hinv4' := invertOpt_mem hn0 h2
      have hA : 0 ≤ (((4 * sigma).tmod n - (sigma * sigma - 5).tmod n) ^ 3) % n :=
        Int.emod_nonneg _ (by omega)
      have hB : 0 ≤ 4 * (sigma * sigma - 5).tmod n + (4 * sigma).tmod n := by
        have := hu.1; have := hv.1; omega
      have hP : 0 ≤ (((4 * sigma).tmod n - (sigma * sigma - 5).tmod n) ^ 3) % n *
          (4 * (sigma * sigma - 5).tmod n + (4 * sigma).tmod n) * cinv :=
        mul_nonneg (mul_nonneg hA hB) hcinv'.1
      set P := (((4 * sigma).tmod n - (sigma * sigma - 5).tmod n) ^ 3) % n *
          (4 * (sigma * sigma - 5).tmod n + (4 * sigma).tmod n) * cinv with hPdef
      have hc2 : 0 ≤ (P - 2).tmod n + 2 := by
        rcases le_or_lt 2 P with h2 | h2
        · have := (tmod_bounds (a := P - 2) (by omega) hn0).1
          omega
        · rw [tmod_of_neg_small hn0 (by omega) (by omega)]
          omega
      exact tmod_bounds (mul_nonneg hc2 hinv4'.1) hn0

/-! ### The prime stream and the stage-2 cursor -/
theorem primeSearch_spec : ∀ f c : ℕ, (∃ p, Nat.Prime p ∧ c ≤ p ∧ p ≤ c + f) →
    Nat.Prime (primeSearch f c) ∧ c ≤ primeSearch f c := by
  intro f
  induction f with
  | zero =>
    intro c ⟨p, hp, h1, h2⟩
    have : p = c := by omega
    subst this
    exact ⟨hp, le_refl _⟩
  | succ f ih =>
    intro c ⟨p, hp, h1, h2⟩
    unfold primeSearch
    by_cases hc : Nat.Prime c
    · simp [hc]
    · simp only [hc, if_false]
      have hpc : p ≠ c := fun h => hc (h ▸ hp)
      have := ih (c + 1) ⟨p, hp, by omega, by omega⟩
      exact ⟨this.1, by omega⟩

theorem nextPrime_spec (n : ℕ) : Nat.Prime (nextPrime n) ∧ n < nextPrime n := by
  obtain ⟨p, hp, h1, h2⟩ := Nat.exists_prime_lt_and_le_two_mul (n + 1) (Nat.succ_ne_zero n)
  have := primeSearch_spec (n + 3) (n + 1) ⟨p, hp, by omega, by omega⟩
  unfold nextPrime
  exact ⟨this.1, by omega⟩

theorem primeStream_prime : ∀ i, Nat.Prime (primeStream i) := by
  intro i
  cases i with
  | zero => exact Nat.prime_two
  | succ i => exact (nextPrime_spec (primeStream i)).1

theorem primeStream_strictMono : StrictMono primeStream :=
  strictMono_nat_of_lt_succ fun i => (nextPrime_spec (primeStream i)).2

theorem firstPrimes_mem {a k : ℕ} (h : a ∈ firstPrimes k) :
    ∃ i, i < k ∧ primeStream i = a := by
  unfold firstPrimes at h
  simp only [List.mem_map, List.mem_range] at h
  obtain ⟨i, hi, rfl⟩ := h
  exact ⟨i, hi, rfl⟩

theorem firstPrimes_two_le {a k : ℕ} (h : a ∈ firstPrimes k) : 2 ≤ a := by
  obtain ⟨i, _, rfl⟩ := firstPrimes_mem h
  exact (primeStream_prime i).two_le

theorem pullPrimesF_spec (limit : ℕ) : ∀ f c : ℕ, limit + 1 < c + f →
    (∀ qq ∈ (pullPrimesF limit f c).1, Nat.Prime qq ∧ c ≤ qq ∧ qq ≤ limit) ∧
    limit < (pullPrimesF limit f c).2 := by
  intro f
  induction f with
  | zero =>
    intro c hc
    unfold pullPrimesF
    refine ⟨fun qq hq => absurd hq (List.not_mem_nil qq), ?_⟩
    have := (nextPrime_spec (c - 1)).2
    omega
  | succ f ih =>
    intro c hc
    unfold pullPrimesF
    have hp := nextPrime_spec (c - 1)
    by_cases hle : nextPrime (c - 1) ≤ limit
    · simp only [hle, if_true]
      have hrec := ih (nextPrime (c - 1) + 1) (by omega)
      refine ⟨?_, hrec.2⟩
      intro qq hq
      rcases List.mem_cons.mp hq with rfl | hq
      · exact ⟨hp.1, by omega, hle⟩
      · have := hrec.1 qq hq
        exact ⟨this.1, by omega, this.2.2⟩
    · simp only [hle, if_false]
      exact ⟨fun qq hq => absurd hq (List.not_mem_nil qq), by omega⟩

theorem pullPrimes_spec (limit c : ℕ) :
    (∀ qq ∈ (pullPrimes limit c).1, Nat.Prime qq ∧ c ≤ qq ∧ qq ≤ limit) ∧
    limit < (pullPrimes limit c).2 :=
  pullPrimesF_spec limit (limit + 2) c (by omega)

theorem stage2_fold_pairs (n : ℤ) (q : Point) (dd : ℕ) :
    ∀ (len start : ℕ) (st : Stage2St), start ≤ st.cur →
    ∀ pr ∈ ((List.range' start len (2 * dd)).foldl (stage2Step n q dd) st).pairs,
      pr ∈ st.pairs ∨
        (Nat.Prime pr.2 ∧ start ≤ pr.1 ∧ pr.1 ≤ pr.2 ∧ pr.2 ≤ pr.1 + 2 * dd) := by
  intro len
  induction len with
  | zero =>
    intro start st _ pr hpr
    exact Or.inl hpr
  | succ len ih =>
    intro start st hcur pr hpr
    rw [List.range'_succ, List.foldl_cons] at hpr
    have hpull := pullPrimes_spec (start + 2 * dd) st.cur
    have hcur' : start + 2 * dd ≤ (stage2Step n q dd st start).cur := by
      show start + 2 * dd ≤ (pullPrimes (start + 2 * dd) st.cur).2
      exact le_of_lt hpull.2
    have := ih (start + 2 * dd) (stage2Step n q dd st start) hcur' pr hpr
    rcases this with hmem | hprops
    · -- pr is in the pairs after one window step
      have : pr ∈ st.pairs ++ (pullPrimes (start + 2 * dd) st.cur).1.map
          (fun qq => (start, qq)) := hmem
      rcases List.mem_append.mp this with h1 | h2
      · exact Or.inl h1
      · obtain ⟨qq, hqq, rfl⟩ := List.mem_map.mp h2
        have hq := hpull.1 qq hqq
        exact Or.inr ⟨hq.1, le_refl _, le_trans hcur hq.2.1, hq.2.2⟩
    · exact Or.inr ⟨hprops.1, by omega, hprops.2.2⟩

theorem stage2_pairs_spec (n : ℤ) (q : Point) (dd b1 b2 : ℕ) :
    ∀ pr ∈ (stage2 n q dd b1 b2).2,
      Nat.Prime pr.2 ∧ b1 - 1 ≤ pr.1 ∧ pr.1 ≤ pr.2 ∧ pr.2 ≤ pr.1 + 2 * dd := by
  intro pr hpr
  unfold stage2 at hpr
  dsimp only at hpr
  have := stage2_fold_pairs n q dd ((b2 - (b1 - 1) + (2 * dd - 1)) / (2 * dd)) (b1 - 1)
    ⟨q.mont_ladder (b1 - 1 - 2 * dd), q.mont_ladder (b1 - 1), 1, b1 - 1, []⟩
    (le_refl _) pr hpr
  rcases this with h | h
  · exact absurd h (List.not_mem_nil pr)
  · exact h

/-! ### Invariants of the drivers division loops -/
theorem mapProd_bump (m : FacMap) (f : ℤ) : mapProd (bump m f) = f * mapProd m := by
  induction m with
  | nil => simp [bump, mapProd]
  | cons pe rest ih =>
    rcases pe with ⟨p, e⟩
    unfold bump
    split
    · rename_i hpf
      subst hpf
      simp only [mapProd, List.map_cons, List.prod_cons]
      ring
    · simp only [mapProd, List.map_cons, List.prod_cons]
      unfold mapProd at ih
      rw [ih]
      ring

theorem bump_keys {m : FacMap} {f : ℤ} {p' : ℤ} {e' : ℕ}
    (h : (p', e') ∈ bump m f) : p' = f ∨ ∃ e, (p', e) ∈ m := by
  induction m with
  | nil =>
    simp only [bump, List.mem_singleton] at h
    exact Or.inl (congrArg Prod.fst h)
  | cons pe rest ih =>
    rcases pe with ⟨p, e⟩
    unfold bump at h
    split at h
    · rename_i hpf
      subst hpf
      rcases List.mem_cons.mp h with h1 | h1
      · exact Or.inl (congrArg Prod.fst h1)
      · exact Or.inr ⟨e', List.mem_cons_of_mem _ h1⟩
    · rcases List.mem_cons.mp h with h1 | h1
      · refine Or.inr ⟨e, ?_⟩
        rw [show p' = p from congrArg Prod.fst h1]
        exact List.mem_cons_self _ _
      · rcases ih h1 with h2 | ⟨e2, he2⟩
        · exact Or.inl h2
        · exact Or.inr ⟨e2, List.mem_cons_of_mem _ he2⟩

theorem divideOut_spec {f : ℤ} : ∀ (fuel : ℕ) (n : ℤ) (m : FacMap) (n' : ℤ) (m' : FacMap),
    divideOut f fuel n m = some (n', m') →
    n' * mapProd m' = n * mapProd m ∧ n' ∣ n ∧
      ∀ p' e', (p', e') ∈ m' → (∃ e, (p', e) ∈ m) ∨ (p' = f ∧ f ∣ n) := by
  intro fuel
  induction fuel with
  | zero =>
    intro n m n' m' h
    unfold divideOut at h
    split at h
    · cases h
    · injection h with h
      cases h
      exact ⟨rfl, dvd_refl _, fun p' e' hm => Or.inl ⟨e', hm⟩⟩
  | succ fuel ih =>
    intro n m n' m' h
    unfold divideOut at h
    split at h
    · rename_i hdvd
      have hrec := ih (n / f) (bump m f) n' m' h
      have hexact : n / f * f = n := Int.ediv_mul_cancel hdvd
      refine ⟨?_, ?_, ?_⟩
      · rw [hrec.1, mapProd_bump]
        calc n / f * (f * mapProd m) = (n / f * f) * mapProd m := by ring
          _ = n * mapProd m := by rw [hexact]
      · exact dvd_trans hrec.2.1 ⟨f, hexact.symm⟩
      · intro p' e' hm
        rcases hrec.2.2 p' e' hm with ⟨e, he⟩ | ⟨rfl, _⟩
        · rcases bump_keys he with h1 | h2
          · exact Or.inr ⟨h1, hdvd⟩
          · exact Or.inl h2
        · exact Or.inr ⟨rfl, hdvd⟩
    · injection h with h
      cases h
      exact ⟨rfl, dvd_refl _, fun p' e' hm => Or.inl ⟨e', hm⟩⟩

theorem trialDivide_spec : ∀ (ps : List ℕ) (n : ℤ) (m : FacMap) (n' : ℤ) (m' : FacMap),
    trialDivide ps n m = some (n', m') →
    n' * mapProd m' = n * mapProd m ∧ n' ∣ n ∧
      ∀ p' e', (p', e') ∈ m' → (∃ e, (p', e) ∈ m) ∨ p' ∣ n := by
  intro ps
  induction ps with
  | nil =>
    intro n m n' m' h
    injection h with h
    cases h
    exact ⟨rfl, dvd_refl _, fun p' e' hm => Or.inl ⟨e', hm⟩⟩
  | cons p rest ih =>
    intro n m n' m' h
    unfold trialDivide at h
    split at h
    · rcases hdo : divideOut (p : ℤ) (n.natAbs + 1) n m with _ | ⟨n2, m2⟩
      · rw [hdo] at h
        cases h
      · rw [hdo] at h
        have hd := divideOut_spec _ _ _ _ _ hdo
        have hr := ih n2 m2 n' m' h
        refine ⟨?_, dvd_trans hr.2.1 hd.2.1, ?_⟩
        · rw [hr.1, hd.1]
        · intro p' e' hm
          rcases hr.2.2 p' e' hm with ⟨e, he⟩ | hdv
          · rcases hd.2.2 p' e he with he' | ⟨rfl, hf⟩
            · exact Or.inl he'
            · exact Or.inr hf
          · exact Or.inr (dvd_trans hdv hd.2.1)
    · exact ih n m n' m' h

theorem trialDivide_nodvd : ∀ (ps : List ℕ) (n : ℤ) (m : FacMap),
    (∀ p ∈ ps, ¬((p : ℤ) ∣ n)) → trialDivide ps n m = some (n, m) := by
  intro ps
  induction ps with
  | nil => intro n m _; rfl
  | cons p rest ih =>
    intro n m hnd
    unfold trialDivide
    rw [if_neg (hnd p (List.mem_cons_self p rest))]
    exact ih n m fun p' hp' => hnd p' (List.mem_cons_of_mem p hp')

/-! ### The curve loop: draw counting and factor quality -/
theorem invertOpt_none_gcd {a n : ℤ} (h : invertOpt a n = none) : Int.gcd a n ≠ 1 := by
  unfold invertOpt at h
  split at h
  · cases h
  · assumption

theorem suyama_inl_spec {n sigma f : ℤ} (h : suyama n sigma = some (Sum.inl f)) :
    ∃ a, Int.gcd a n ≠ 1 ∧ f = ((Int.gcd a n : ℕ) : ℤ) := by
  unfold suyama at h
  dsimp only at h
  rcases h1 : invertOpt (4 * (((sigma * sigma - 5).tmod n) ^ 3).tmod n * ((4 * sigma).tmod n)) n
    with _ | cinv
  · rw [h1] at h
    injection h with h
    injection h with h
    exact ⟨_, invertOpt_none_gcd h1, h.symm⟩
  · rw [h1] at h
    dsimp only at h
    rcases h2 : invertOpt 4 n with _ | inv4 <;> rw [h2] at h
    · cases h
    · simp at h

theorem gcd_factor_spec {a n : ℤ} (hn : 1 < n) (hne : Int.gcd a n ≠ 1) :
    ((Int.gcd a n : ℕ) : ℤ) ∣ n ∧ 1 < ((Int.gcd a n : ℕ) : ℤ) ∧
      ((Int.gcd a n : ℕ) : ℤ) ≤ n := by
  have hdvd : ((Int.gcd a n : ℕ) : ℤ) ∣ n := Int.gcd_dvd_right
  have hz : Int.gcd a n ≠ 0 := by
    intro h0
    have := Int.gcd_eq_zero_iff.mp h0
    omega
  have h2 : 2 ≤ Int.gcd a n := by omega
  have h1f : 1 < ((Int.gcd a n : ℕ) : ℤ) := by exact_mod_cast h2
  exact ⟨hdvd, h1f, Int.le_of_dvd (by omega) hdvd⟩

theorem curveLoop_count (n : ℤ) (b1 b2 : ℕ) (o : ℕ → ℕ) (k dd : ℕ) :
    ∀ (fuel curve idx : ℕ),
    (curveLoop n b1 b2 o k dd fuel curve idx).2 ≤ curve + fuel ∧
    ((curveLoop n b1 b2 o k dd fuel curve idx).1 = .err .ecmFailed →
      (curveLoop n b1 b2 o k dd fuel curve idx).2 = curve + fuel) := by
  intro fuel
  induction fuel with
  | zero =>
    intro curve idx
    exact ⟨le_refl _, fun _ => rfl⟩
  | succ fuel ih =>
    intro curve idx
    simp only [curveLoop]
    split
    · exact ⟨by omega, fun h => nomatch h⟩
    · split
      · exact ⟨by omega, fun h => nomatch h⟩
      · exact ⟨by omega, fun h => nomatch h⟩
      · split
        · exact ⟨by omega, fun h => nomatch h⟩
        · split
          · obtain ⟨h1, h2⟩ := ih (curve + 1) (idx + 1)
            exact ⟨by omega, fun h => by have := h2 h; omega⟩
          · split
            · exact ⟨by omega, fun h => nomatch h⟩
            · split
              · exact ⟨by omega, fun h => nomatch h⟩
              · obtain ⟨h1, h2⟩ := ih (curve + 1) (idx + 1)
                exact ⟨by omega, fun h => by have := h2 h; omega⟩

theorem curveLoop_ok_dvd {n : ℤ} (hn : 1 < n) (b1 b2 : ℕ) (o : ℕ → ℕ) (k dd : ℕ) :
    ∀ (fuel curve idx : ℕ) (f : ℤ),
    (curveLoop n b1 b2 o k dd fuel curve idx).1 = .ok f →
    f ∣ n ∧ 1 < f ∧ f ≤ n := by
  intro fuel
  induction fuel with
  | zero =>
    intro curve idx f h
    cases h
  | succ fuel ih =>
    intro curve idx f h
    simp only [curveLoop] at h
    split at h
    · cases h
    · split at h
      · cases h
      · rename_i f0 hsuy
        injection h with h
        subst h
        obtain ⟨a, hne, rfl⟩ := suyama_inl_spec hsuy
        exact gcd_factor_spec hn hne
      · split at h
        · rename_i hcond
          injection h with h
          subst h
          refine gcd_factor_spec hn ?_
          intro h1
          exact hcond.2 (by rw [h1]; norm_num)
        · split at h
          · exact ih _ _ _ h
          · split at h
            · cases h
            · split at h
              · rename_i hcond
                injection h with h
                subst h
                refine gcd_factor_spec hn ?_
                intro h1
                exact hcond.2 (by rw [h1]; norm_num)
              · exact ih _ _ _ h

theorem ecmOneFactorAux_count (n : ℤ) (b1 b2 mc : ℕ) (o : ℕ → ℕ) (idx : ℕ) :
    (ecmOneFactorAux n b1 b2 mc o idx).2 ≤ mc + 1 ∧
    ((ecmOneFactorAux n b1 b2 mc o idx).1 = .err .ecmFailed →
      (ecmOneFactorAux n b1 b2 mc o idx).2 = mc + 1) := by
  unfold ecmOneFactorAux
  split
  · exact ⟨by omega, fun h => nomatch h⟩
  · split
    · exact ⟨by omega, fun h => nomatch h⟩
    · have := curveLoop_count n b1 b2 o (stage1k b1) (Nat.sqrt b2) (mc + 1) 0 idx
      exact ⟨by omega, fun h => by have := this.2 h; omega⟩

theorem ecmOneFactorAux_ok_dvd {n : ℤ} (hn : 1 < n) (b1 b2 mc : ℕ) (o : ℕ → ℕ)
    (idx : ℕ) (f : ℤ) (h : (ecmOneFactorAux n b1 b2 mc o idx).1 = .ok f) :
    f ∣ n ∧ 1 < f ∧ f ≤ n := by
  unfold ecmOneFactorAux at h
  split at h
  · cases h
  · split at h
    · cases h
    · exact curveLoop_ok_dvd hn b1 b2 o _ _ _ _ _ f h

/-! ### The ECM loop of the driver -/
theorem ecmLoop_ok_spec (b1 b2 mc : ℕ) (o : ℕ → ℕ) :
    ∀ (fuel : ℕ) (n : ℤ) (idx : ℕ) (m m' : FacMap),
    ecmLoop b1 b2 mc o fuel n idx m = some (.ok m') →
    mapProd m' = n * mapProd m ∧
      ∀ p' e', (p', e') ∈ m' → (∃ e, (p', e) ∈ m) ∨ p' ∣ n := by
  intro fuel
  induction fuel with
  | zero =>
    intro n idx m m' h
    cases h
  | succ fuel ih =>
    intro n idx m m' h
    simp only [ecmLoop] at h
    by_cases h1 : n = 1
    · rw [if_pos h1] at h
      injection h with h
      injection h with h
      subst h
      subst h1
      exact ⟨by rw [one_mul], fun p' e' hm => Or.inl ⟨e', hm⟩⟩
    · rw [if_neg h1] at h
      rcases haux : ecmOneFactorAux n b1 b2 mc o idx with ⟨res, c⟩
      rw [haux] at h
      cases res with
      | panic =>
        injection h with h
        cases h
      | ok f =>
        dsimp only at h
        rcases hdo : divideOut f (n.natAbs + 1) n m with _ | ⟨n2, m2⟩ <;> rw [hdo] at h
        · cases h
        · have hd := divideOut_spec _ _ _ _ _ hdo
          have hr := ih n2 (idx + c) m2 m' h
          refine ⟨by rw [hr.1, hd.1], ?_⟩
          intro p' e' hm
          rcases hr.2 p' e' hm with ⟨e, he⟩ | hdv
          · rcases hd.2.2 p' e he with he' | ⟨rfl, hf⟩
            · exact Or.inl he'
            · exact Or.inr hf
          · exact Or.inr (dvd_trans hdv hd.2.1)
      | err e =>
        dsimp only at h
        rcases hdo : divideOut n (n.natAbs + 1) n m with _ | ⟨n2, m2⟩ <;> rw [hdo] at h
        · cases h
        · have hd := divideOut_spec _ _ _ _ _ hdo
          have hr := ih n2 (idx + c) m2 m' h
          refine ⟨by rw [hr.1, hd.1], ?_⟩
          intro p' e' hm
          rcases hr.2 p' e' hm with ⟨e, he⟩ | hdv
          · rcases hd.2.2 p' e he with he' | ⟨rfl, hf⟩
            · exact Or.inl he'
            · exact Or.inr hf
          · exact Or.inr (dvd_trans hdv hd.2.1)

theorem ecmLoop_notErr (b1 b2 mc : ℕ) (o : ℕ → ℕ) :
    ∀ (fuel : ℕ) (n : ℤ) (idx : ℕ) (m : FacMap),
    notErr (ecmLoop b1 b2 mc o fuel n idx m) = true := by
  intro fuel
  induction fuel with
  | zero => intro n idx m; rfl
  | succ fuel ih =>
    intro n idx m
    simp only [ecmLoop]
    by_cases h1 : n = 1
    · rw [if_pos h1]; rfl
    · rw [if_neg h1]
      rcases haux : ecmOneFactorAux n b1 b2 mc o idx with ⟨res, c⟩
      cases res with
      | panic => rfl
      | ok f =>
        dsimp only
        rcases hdo : divideOut f (n.natAbs + 1) n m with _ | ⟨n2, m2⟩
        · rfl
        · exact ih n2 (idx + c) m2
      | err e =>
        dsimp only
        rcases hdo : divideOut n (n.natAbs + 1) n m with _ | ⟨n2, m2⟩
        · rfl
        · exact ih n2 (idx + c) m2

theorem ecm_with_params_ok_spec {n : ℤ} {b1 b2 mc : ℕ} {o : ℕ → ℕ} {fuel : ℕ}
    {m' : FacMap} (h : ecm_with_params n b1 b2 mc o fuel = some (.ok m')) :
    mapProd m' = n ∧ ∀ p' e', (p', e') ∈ m' → p' ∣ n := by
  unfold ecm_with_params at h
  rcases htd : trialDivide (firstPrimes 100000) n [] with _ | ⟨n1, m1⟩ <;> rw [htd] at h
  · cases h
  · have ht := trialDivide_spec _ _ _ _ _ htd
    have hl := ecmLoop_ok_spec b1 b2 mc o fuel n1 0 m1 m' h
    have hprod : mapProd m' = n := by
      have hone : mapProd ([] : FacMap) = 1 := rfl
      rw [hl.1, ht.1, hone, mul_one]
    refine ⟨hprod, ?_⟩
    intro p' e' hm
    rcases hl.2 p' e' hm with ⟨e, he⟩ | hdv
    · rcases ht.2.2 p' e he with ⟨e2, he2⟩ | hdv2
      · cases he2
      · exact hdv2
    · exact dvd_trans hdv ht.2.1

theorem ecm_with_params_notErr (n : ℤ) (b1 b2 mc : ℕ) (o : ℕ → ℕ) (fuel : ℕ) :
    notErr (ecm_with_params n b1 b2 mc o fuel) = true := by
  unfold ecm_with_params
  rcases htd : trialDivide (firstPrimes 100000) n [] with _ | ⟨n1, m1⟩
  · rfl
  · exact ecmLoop_notErr b1 b2 mc o fuel n1 0 m1

/-! ### Concrete terminating runs of the driver -/
theorem primeStream_ge : ∀ i : ℕ, i + 2 ≤ primeStream i := by
  intro i
  induction i with
  | zero => exact le_refl 2
  | succ i ih =>
    have := (nextPrime_spec (primeStream i)).2
    show i + 1 + 2 ≤ nextPrime (primeStream i)
    omega

theorem not_cast_dvd_one {p : ℕ} (hp : 2 ≤ p) : ¬((p : ℤ) ∣ 1) := by
  intro h
  have := Int.eq_one_of_dvd_one (by positivity) h
  omega

theorem trialDivide_one (m : FacMap) :
    trialDivide (firstPrimes 100000) 1 m = some (1, m) :=
  trialDivide_nodvd _ _ _ fun p hp => not_cast_dvd_one (firstPrimes_two_le hp)

theorem trialDivide_neg_one (m : FacMap) :
    trialDivide (firstPrimes 100000) (-1) m = some (-1, m) := by
  refine trialDivide_nodvd _ _ _ fun p hp h => ?_
  exact not_cast_dvd_one (firstPrimes_two_le hp) ((dvd_neg).mp h)

/-- The head of the trial-division prime list is 2. -/
theorem firstPrimes_head :
    firstPrimes 100000 = 2 :: (List.range 99999).map (primeStream ∘ Nat.succ) := by
  unfold firstPrimes
  have h : (100000 : ℕ) = 99999 + 1 := rfl
  rw [h, List.range_succ_eq_map, List.map_cons, List.map_map]
  rfl

/-- Unfolding equation for `ecm_with_params` (definitional). -/
theorem ecm_with_params_eq (n : ℤ) (b1 b2 mc : ℕ) (o : ℕ → ℕ) (fuel : ℕ) :
    ecm_with_params n b1 b2 mc o fuel =
      (trialDivide (firstPrimes 100000) n []).bind fun w =>
        ecmLoop b1 b2 mc o fuel w.1 0 w.2 := rfl

/-- Unfolding equation for `trialDivide` on a cons cell (definitional). -/
theorem trialDivide_cons (p : ℕ) (ps : List ℕ) (n : ℤ) (m : FacMap) :
    trialDivide (p :: ps) n m =
      if (p : ℤ) ∣ n then
        (divideOut (p : ℤ) (n.natAbs + 1) n m).bind fun w => trialDivide ps w.1 w.2
      else trialDivide ps n m := rfl

/-- One step of the ECM loop when the residual is 1. -/
theorem ecmLoop_one (b1 b2 mc : ℕ) (o : ℕ → ℕ) (fuel idx : ℕ) (m : FacMap) :
    ecmLoop b1 b2 mc o (fuel + 1) 1 idx m = some (.ok m) := rfl

/-- One step of the ECM loop when `ecm_one_factor` panics. -/
theorem ecmLoop_panic {n : ℤ} (hne : n ≠ 1) {b1 b2 mc : ℕ} {o : ℕ → ℕ}
    {idx c : ℕ} (haux : ecmOneFactorAux n b1 b2 mc o idx = (.panic, c))
    (fuel : ℕ) (m : FacMap) :
    ecmLoop b1 b2 mc o (fuel + 1) n idx m = some .panic := by
  simp only [ecmLoop, if_neg hne, haux]

/-- One step of the ECM loop on an `Ok(f)` factor. -/
theorem ecmLoop_ok_step {n : ℤ} (hne : n ≠ 1) {b1 b2 mc : ℕ} {o : ℕ → ℕ}
    {idx c : ℕ} {f : ℤ} (haux : ecmOneFactorAux n b1 b2 mc o idx = (.ok f, c))
    {n2 : ℤ} {m2 : FacMap} {m : FacMap}
    (hdo : divideOut f (n.natAbs + 1) n m = some (n2, m2)) (fuel : ℕ) :
    ecmLoop b1 b2 mc o (fuel + 1) n idx m = ecmLoop b1 b2 mc o fuel n2 (idx + c) m2 := by
  simp only [ecmLoop, if_neg hne, haux]
  rw [hdo, Option.some_bind]

/-- The division loop stops immediately when the factor does not divide. -/
theorem divideOut_stop {f n : ℤ} (h : ¬(f ∣ n)) :
    ∀ (fuel : ℕ) (m : FacMap), divideOut f fuel n m = some (n, m) := by
  intro fuel m
  cases fuel <;> unfold divideOut <;> rw [if_neg h]

/-- Dividing a residual by itself: one division, then stop. -/
theorem divideOut_self {n : ℤ} (hn : 1 < n) (fuel : ℕ) (m : FacMap) :
    divideOut n (fuel + 1) n m = some (1, bump m n) := by
  unfold divideOut
  rw [if_pos (dvd_refl n), Int.ediv_self (by omega)]
  exact divideOut_stop (fun hdvd => by have := Int.le_of_dvd one_pos hdvd; omega) _ _

theorem divideOut_four : divideOut ((2 : ℕ) : ℤ) ((4:ℤ).natAbs + 1) 4 [] =
    some (1, [((2:ℤ), 2)]) := by decide

/-- A concrete terminating run of the driver: `ecm_with_params(4)` returns
`{2: 2}` for every choice of parameters and oracle (trial division already
finishes the factorization). -/
theorem driver_four (b1 b2 mc : ℕ) (o : ℕ → ℕ) (fuel : ℕ) (hf : 1 ≤ fuel) :
    ecm_with_params 4 b1 b2 mc o fuel = some (.ok [((2:ℤ), 2)]) := by
  have htd : trialDivide (firstPrimes 100000) 4 [] = some (1, [((2:ℤ), 2)]) := by
    rw [firstPrimes_head, trialDivide_cons,
      if_pos (show ((2:ℕ):ℤ) ∣ (4:ℤ) by norm_num), divideOut_four, Option.some_bind]
    exact trialDivide_nodvd _ _ _ fun p hp h => by
      simp only [List.mem_map, List.mem_range] at hp
      obtain ⟨i, _, rfl⟩ := hp
      exact not_cast_dvd_one (primeStream_prime (i + 1)).two_le h
  obtain ⟨fuel', rfl⟩ : ∃ f', fuel = f' + 1 := ⟨fuel - 1, by omega⟩
  rw [ecm_with_params_eq, htd, Option.some_bind]
  show ecmLoop b1 b2 mc o (fuel' + 1) 1 0 [((2:ℤ), 2)] = some (.ok [((2:ℤ), 2)])
  exact ecmLoop_one b1 b2 mc o fuel' 0 [((2:ℤ), 2)]

/-- For `N = 1` the driver returns the empty mapping, for any parameters. -/
theorem driver_one (b1 b2 mc : ℕ) (o : ℕ → ℕ) (fuel : ℕ) (hf : 1 ≤ fuel) :
    ecm_with_params 1 b1 b2 mc o fuel = some (.ok []) := by
  obtain ⟨fuel', rfl⟩ : ∃ f', fuel = f' + 1 := ⟨fuel - 1, by omega⟩
  rw [ecm_with_params_eq, trialDivide_one, Option.some_bind]
  show ecmLoop b1 b2 mc o (fuel' + 1) 1 0 [] = some (.ok [])
  exact ecmLoop_one b1 b2 mc o fuel' 0 []

/-- With even bounds, `ecm_one_factor` on a non-probable-prime residual enters
the curve loop. -/
theorem ecmOneFactorAux_enter {n : ℤ} {b1 b2 : ℕ} (h1 : b1 % 2 = 0)
    (h2 : b2 % 2 = 0) (hpp : isProbablyPrime n = false) (mc : ℕ) (o : ℕ → ℕ)
    (idx : ℕ) :
    ecmOneFactorAux n b1 b2 mc o idx =
      curveLoop n b1 b2 o (stage1k b1) (Nat.sqrt b2) (mc + 1) 0 idx := by
  unfold ecmOneFactorAux
  rw [if_neg (by omega), if_neg (by simp [hpp])]

/-- The first curve iteration panics when the `random_below` bound `n - 1` is
not positive. -/
theorem curveLoop_panic_step {n : ℤ} (h : n - 1 ≤ 0) (b1 b2 : ℕ) (o : ℕ → ℕ)
    (k dd fuel curve idx : ℕ) :
    curveLoop n b1 b2 o k dd (fuel + 1) curve idx = (.panic, curve + 1) := by
  simp only [curveLoop, if_pos h]

/-- The curve iteration returns the direct-hit factor when the Suyama setup
fails to invert `4 u³ v`. -/
theorem curveLoop_hit_step {n : ℤ} (h : ¬(n - 1 ≤ 0)) {o : ℕ → ℕ} {idx : ℕ}
    {f : ℤ} (hsig : suyama n ((o idx : ℤ) % (n - 1)) = some (Sum.inl f))
    (b1 b2 k dd fuel curve : ℕ) :
    curveLoop n b1 b2 o k dd (fuel + 1) curve idx = (.ok f, curve + 1) := by
  simp only [curveLoop, if_neg h, hsig]

/-- For `N = -1` (and any even bounds) the driver panics: the residual `-1`
fails the primality test, and `random_below` is called with the non-positive
bound `-2`. -/
theorem driver_neg_one (b1 b2 mc : ℕ) (o : ℕ → ℕ) (fuel : ℕ) (h1 : b1 % 2 = 0)
    (h2 : b2 % 2 = 0) (hf : 1 ≤ fuel) :
    ecm_with_params (-1) b1 b2 mc o fuel = some .panic := by
  obtain ⟨fuel', rfl⟩ : ∃ f', fuel = f' + 1 := ⟨fuel - 1, by omega⟩
  rw [ecm_with_params_eq, trialDivide_neg_one, Option.some_bind]
  show ecmLoop b1 b2 mc o (fuel' + 1) (-1) 0 [] = some .panic
  have haux : ecmOneFactorAux (-1) b1 b2 mc o 0 = (.panic, 0 + 1) := by
    rw [ecmOneFactorAux_enter h1 h2 (by decide) mc o 0]
    exact curveLoop_panic_step (by decide) b1 b2 o _ _ mc 0 0
  exact ecmLoop_panic (by decide) haux fuel' []

/-! ### An adversarial run recording a composite key -/
theorem invertOpt_none {a n : ℤ} (h : Int.gcd a n ≠ 1) : invertOpt a n = none := by
  unfold invertOpt
  rw [if_neg h]

/-- With `sigma = 0` the Suyama setup has `v = 0`, so `4 u³ v = 0` is not
invertible and the direct-hit branch returns `gcd(0, n) = |n|` — the whole
composite `n` itself. -/
theorem suyama_zero {n : ℤ} (hn : 125 < n) :
    suyama n 0 = some (Sum.inl ((n.natAbs : ℕ) : ℤ)) := by
  have hg : Int.gcd 0 n ≠ 1 := by
    rw [Int.gcd_zero_left]
    intro h1
    have := congrArg (fun x : ℕ => (x : ℤ)) h1
    simp only [Int.natAbs_of_nonneg (by omega : (0:ℤ) ≤ n)] at this
    omega
  unfold suyama
  dsimp only
  rw [show ((0:ℤ) * 0 - 5) = -5 by norm_num,
    tmod_of_neg_small (a := (-5 : ℤ)) (by omega) (by omega) (by omega),
    show (4:ℤ) * 0 = 0 by norm_num, Int.zero_tmod,
    show ((-5:ℤ) ^ 3) = -125 by norm_num,
    tmod_of_neg_small (a := (-125 : ℤ)) (by omega) (by omega) (by omega),
    show (4:ℤ) * -125 * 0 = 0 by norm_num,
    invertOpt_none hg, Int.gcd_zero_left]

theorem isProbablyPrime_sq_false {q : ℕ} (hq : 2 ≤ q) :
    isProbablyPrime (((q : ℕ) : ℤ) ^ 2) = false := by
  unfold isProbablyPrime
  refine decide_eq_false fun hp => ?_
  rw [Int.natAbs_pow, Int.natAbs_ofNat, pow_two] at hp
  exact Nat.not_prime_mul (by omega) (by omega) hp

/-- A terminating run of the driver on the square of the 100001-st prime with
an adversarial seed: trial division finds nothing, the first curve draws
`sigma = 0`, and the direct-hit branch returns the *composite* residual
itself, which the driver records as a key. -/
theorem driver_bigQ (o : ℕ → ℕ) (ho : o 0 = 0) :
    ecm_with_params (((nextPrime (primeStream 99999) : ℕ) : ℤ) ^ 2) 2 2 0 o 2 =
      some (.ok [((((nextPrime (primeStream 99999) : ℕ) : ℤ) ^ 2), 1)]) := by
  set Q := nextPrime (primeStream 99999) with hQdef
  have hQp : Nat.Prime Q := (nextPrime_spec _).1
  have hQge : 100001 ≤ Q := by
    have h1 := primeStream_ge 99999
    have h2 := (nextPrime_spec (primeStream 99999)).2
    omega
  have hQc : (100001 : ℤ) ≤ ((Q : ℕ) : ℤ) := by exact_mod_cast hQge
  set N : ℤ := ((Q : ℕ) : ℤ) ^ 2 with hNdef
  have hNbig : (125 : ℤ) < N := by rw [hNdef]; nlinarith
  have hN1 : (1 : ℤ) < N := by omega
  have htd : trialDivide (firstPrimes 100000) N [] = some (N, []) := by
    refine trialDivide_nodvd _ _ _ fun p hp hdvd => ?_
    obtain ⟨i, hi, rfl⟩ := firstPrimes_mem hp
    have hpp : Nat.Prime (primeStream i) := primeStream_prime i
    have hcast : (((primeStream i : ℕ)) : ℤ) ∣ ((Q ^ 2 : ℕ) : ℤ) := by
      rwa [show ((Q ^ 2 : ℕ) : ℤ) = N by rw [hNdef]; push_cast; ring]
    have hnat : primeStream i ∣ Q ^ 2 := Int.natCast_dvd_natCast.mp hcast
    have hdq : primeStream i ∣ Q := hpp.dvd_of_dvd_pow hnat
    have heq : primeStream i = Q := (Nat.prime_dvd_prime_iff_eq hpp hQp).mp hdq
    have hmono : primeStream i ≤ primeStream 99999 :=
      primeStream_strictMono.monotone (by omega)
    have := (nextPrime_spec (primeStream 99999)).2
    omega
  have hppf : isProbablyPrime N = false := isProbablyPrime_sq_false hQp.two_le
  have hsigv : ((o 0 : ℕ) : ℤ) % (N - 1) = 0 := by
    rw [ho]
    norm_num
  have hsig : suyama N (((o 0 : ℕ) : ℤ) % (N - 1)) = some (Sum.inl N) := by
    rw [hsigv]
    have h0 := suyama_zero hNbig
    rwa [show ((N.natAbs : ℕ) : ℤ) = N from Int.natAbs_of_nonneg (by omega)] at h0
  have haux : ecmOneFactorAux N 2 2 0 o 0 = (.ok N, 0 + 1) := by
    rw [ecmOneFactorAux_enter rfl rfl hppf 0 o 0]
    exact curveLoop_hit_step (by omega) hsig 2 2 (stage1k 2) (Nat.sqrt 2) 0 0
  have hdo : divideOut N (N.natAbs + 1) N [] = some (1, bump [] N) :=
    divideOut_self hN1 N.natAbs []
  rw [ecm_with_params_eq, htd, Option.some_bind]
  show ecmLoop 2 2 0 o (1 + 1) N 0 [] = some (.ok [(N, 1)])
  rw [ecmLoop_ok_step (by omega) haux hdo 1]
  exact ecmLoop_one 2 2 0 o 0 (0 + (0 + 1)) (bump [] N)

/-! ### The claims -/

/-- C1: for every integer `N ≥ 2` on which the driver terminates, the mapping
returned by `ecm` / `ecm_with_params` multiplies back to `N`: the product over
all keys `p` of `p` raised to its recorded multiplicity equals `N`. -/
theorem C1_product_reconstruction :
    ∀ (N : ℤ), 2 ≤ N → ∀ (b1 b2 mc : ℕ) (o : ℕ → ℕ) (fuel : ℕ) (m : FacMap),
      (ecm_with_params N b1 b2 mc o fuel = some (.ok m) → mapProd m = N) ∧
      (ecm N o fuel = some (.ok m) → mapProd m = N) := by
  intro N _ b1 b2 mc o fuel m
  constructor
  · intro h
    exact (ecm_with_params_ok_spec h).1
  · intro h
    exact (ecm_with_params_ok_spec h).1

/-- C1 witness: the driver factors `4` as `{2: 2}` and `2^2 = 4`. -/
theorem C1_witness : mapProd [((2:ℤ), 2)] = 4 :=
  (C1_product_reconstruction 4 (by norm_num) 6 8 200 (fun _ => 0) 3 [((2:ℤ), 2)]).1
    (driver_four 6 8 200 (fun _ => 0) 3 (by norm_num))

/-- C2 counterexample: on `N = q²` with `q` the 100001-st prime (which trial
division by the first 100000 primes cannot touch), a seed whose first draw is
`sigma = 0` makes the Suyama direct-hit branch return `gcd(0, N) = N`, and the
driver records the composite `N` itself as a key of the returned mapping — a
key that is not a probable prime. -/
theorem C2_counterexample :
    ecm_with_params (((nextPrime (primeStream 99999) : ℕ) : ℤ) ^ 2) 2 2 0
        (fun _ => 0) 2 =
      some (.ok [((((nextPrime (primeStream 99999) : ℕ) : ℤ) ^ 2), 1)]) ∧
    isProbablyPrime (((nextPrime (primeStream 99999) : ℕ) : ℤ) ^ 2) = false :=
  ⟨driver_bigQ (fun _ => 0) rfl,
    isProbablyPrime_sq_false (nextPrime_spec (primeStream 99999)).1.two_le⟩

/-- C2 (amended): not every key of the returned mapping is a probable prime —
factors recorded from the ECM loop (direct-hit gcds, and residuals substituted
for `ecm_one_factor` errors by `unwrap_or`) can be composite.  What does hold
for every terminating run is that every key divides the input `N`. -/
theorem C2_amended_keys_divide :
    ∀ (N : ℤ) (b1 b2 mc : ℕ) (o : ℕ → ℕ) (fuel : ℕ) (m : FacMap),
      ecm_with_params N b1 b2 mc o fuel = some (.ok m) →
      ∀ p e, (p, e) ∈ m → p ∣ N := by
  intro N b1 b2 mc o fuel m h p e hm
  exact (ecm_with_params_ok_spec h).2 p e hm

/-- C2 witness: in the run factoring `4`, the key `2` divides `4`. -/
theorem C2_witness : (2:ℤ) ∣ 4 :=
  C2_amended_keys_divide 4 6 8 200 (fun _ => 0) 3 [((2:ℤ), 2)]
    (driver_four 6 8 200 (fun _ => 0) 3 (by norm_num)) 2 2 (by decide)

/-- C3 counterexample: on `n = 15` with a seed drawing `sigma = 0`, the
inversion of `4 u³ v = 0` fails and `ecm_one_factor` returns
`Ok(gcd(0, 15)) = Ok(15)` — the full input, not a factor `f < n`. -/
theorem C3_counterexample :
    ecm_one_factor 15 2 2 200 (fun _ => 0) 0 = .ok 15 ∧ ¬((15:ℤ) < 15) :=
  ⟨by decide, by decide⟩

/-- C3 (amended): whenever `ecm_one_factor` returns `Ok(f)` on input `n > 1`,
`f` divides `n` and `1 < f ≤ n`; on the stage-1 and stage-2 paths `f < n` is
additionally enforced by the guards, but the factor `gcd(4 u³ v, N)` returned
when the Suyama-setup inversion fails can equal `n` itself. -/
theorem C3_amended_factor_divides :
    ∀ (n : ℤ), 1 < n → ∀ (b1 b2 mc : ℕ) (o : ℕ → ℕ) (idx : ℕ) (f : ℤ),
      ecm_one_factor n b1 b2 mc o idx = .ok f → f ∣ n ∧ 1 < f ∧ f ≤ n := by
  intro n hn b1 b2 mc o idx f h
  exact ecmOneFactorAux_ok_dvd hn b1 b2 mc o idx f h

/-- C3 witness: the factor returned on the `n = 15` run divides 15. -/
theorem C3_witness : (15:ℤ) ∣ 15 ∧ (1:ℤ) < 15 ∧ (15:ℤ) ≤ 15 :=
  C3_amended_factor_divides 15 (by decide) 2 2 200 (fun _ => 0) 0 15 (by decide)

/-- C4 counterexample: for `sigma = 2` (a value drawn from `[0, N-1)` for
`N = 35`), `u = sigma² - 5 = -1` is negative, and the Suyama initial point is
constructed with the *negative* `x`-coordinate `u³ mod N = -1 ∉ [0, N)`
(`rug`'s `%` keeps the sign of the dividend). -/
theorem C4_counterexample :
    suyama 35 2 = some (Sum.inr ⟨-1, 22, 33, 35⟩) ∧ ¬((0:ℤ) ≤ -1) ∧
    (0:ℤ) ≤ 2 ∧ (2:ℤ) < 35 - 1 :=
  ⟨by decide, by decide, by decide, by decide⟩

/-- C4 (amended): the range invariant `x, z ∈ [0, N)` holds for `add` whenever
the difference point has nonnegative coordinates, for `double` whenever the
point has nonnegative coordinates and curve constant, for `mont_ladder`
whenever the base point is in range with a nonnegative curve constant, and for
the Suyama initial point whenever `sigma ≥ 3` (so that `sigma² ≥ 5`); for
`sigma ∈ {0, 1, 2}` the initial `x`-coordinate can be negative. -/
theorem C4_amended_coordinate_ranges :
    (∀ p q diff : Point, 0 ≤ diff.x_cord → 0 ≤ diff.z_cord → 0 < p.modulus →
      0 ≤ (p.add q diff).x_cord ∧ (p.add q diff).x_cord < p.modulus ∧
      0 ≤ (p.add q diff).z_cord ∧ (p.add q diff).z_cord < p.modulus) ∧
    (∀ p : Point, 0 ≤ p.x_cord → 0 ≤ p.z_cord → 0 ≤ p.a_24 → 0 < p.modulus →
      0 ≤ p.double.x_cord ∧ p.double.x_cord < p.modulus ∧
      0 ≤ p.double.z_cord ∧ p.double.z_cord < p.modulus) ∧
    (∀ (p : Point) (k : ℕ), 0 ≤ p.x_cord → p.x_cord < p.modulus →
      0 ≤ p.z_cord → p.z_cord < p.modulus → 0 ≤ p.a_24 → 0 < p.modulus →
      0 ≤ (p.mont_ladder k).x_cord ∧ (p.mont_ladder k).x_cord < p.modulus ∧
      0 ≤ (p.mont_ladder k).z_cord ∧ (p.mont_ladder k).z_cord < p.modulus) ∧
    (∀ (n sigma : ℤ) (q0 : Point), 2 < n → 3 ≤ sigma →
      suyama n sigma = some (Sum.inr q0) →
      q0.modulus = n ∧ 0 ≤ q0.x_cord ∧ q0.x_cord < n ∧ 0 ≤ q0.z_cord ∧
      q0.z_cord < n ∧ 0 ≤ q0.a_24 ∧ q0.a_24 < n) := by
  refine ⟨?_, ?_, ?_, ?_⟩
  · intro p q diff h1 h2 h3
    have := Point.add_bounds p q diff h1 h2 h3
    exact ⟨this.1.1, this.1.2, this.2.1, this.2.2⟩
  · intro p h1 h2 h3 h4
    have := Point.double_bounds p h1 h2 h3 h4
    exact ⟨this.1.1, this.1.2, this.2.1, this.2.2⟩
  · intro p k h1 h2 h3 h4 h5 h6
    have := Point.mont_ladder_bounds p k ⟨h1, h2⟩ ⟨h3, h4⟩ h5 h6
    exact ⟨this.1.1, this.1.2, this.2.1, this.2.2⟩
  · intro n sigma q0 hn hs h
    have := suyama_pt_bounds hn hs h
    exact ⟨this.1, this.2.1.1, this.2.1.2, this.2.2.1.1, this.2.2.1.2,
      this.2.2.2.1, this.2.2.2.2⟩

/-- C4 witness: doubling the in-range point `(10 : 17)` on the test curve
modulo 101 stays in `[0, 101)`. -/
theorem C4_witness :
    0 ≤ (Point.double ⟨10, 17, 3, 101⟩).x_cord ∧
    (Point.double ⟨10, 17, 3, 101⟩).x_cord < (⟨10, 17, 3, 101⟩ : Point).modulus ∧
    0 ≤ (Point.double ⟨10, 17, 3, 101⟩).z_cord ∧
    (Point.double ⟨10, 17, 3, 101⟩).z_cord < (⟨10, 17, 3, 101⟩ : Point).modulus :=
  C4_amended_coordinate_ranges.2.1 ⟨10, 17, 3, 101⟩ (by decide) (by decide)
    (by decide) (by decide)

/-- C5 counterexample: with `max_curves = 0` the loop `while curve <= max_curve`
still runs one iteration: a curve is drawn (final counter 1 > 0) and, with a
seed drawing `sigma = 0`, a factor is returned instead of the
`MissedAllCurves` the claim mandates after zero trials. -/
theorem C5_counterexample :
    ecmOneFactorAux 15 2 2 0 (fun _ => 0) 0 = (.ok 15, 1) ∧ (0:ℕ) < 1 :=
  ⟨by decide, by decide⟩

/-- C5 (amended): `ecm_one_factor` attempts at most `max_curves + 1` Suyama
curves (the loop condition is `curve <= max_curve` with `curve` starting at 0),
and when it returns `ECMFailed` it has drawn exactly `max_curves + 1` curves. -/
theorem C5_amended_curve_budget :
    ∀ (n : ℤ) (b1 b2 mc : ℕ) (o : ℕ → ℕ) (idx : ℕ) (res : RunResult ℤ) (c : ℕ),
      ecmOneFactorAux n b1 b2 mc o idx = (res, c) →
      c ≤ mc + 1 ∧ (res = .err .ecmFailed → c = mc + 1) := by
  intro n b1 b2 mc o idx res c h
  have := ecmOneFactorAux_count n b1 b2 mc o idx
  rw [h] at this
  exact this

/-- C5 witness: the `max_curves = 0` run drew `1 ≤ 0 + 1` curves. -/
theorem C5_witness :
    (1:ℕ) ≤ 0 + 1 ∧
    (RunResult.ok (15:ℤ) = RunResult.err .ecmFailed → (1:ℕ) = 0 + 1) :=
  C5_amended_curve_budget 15 2 2 0 (fun _ => 0) 0 (.ok 15) 1 (by decide)

/-- C6 counterexample: with `B1 = 4` (so `b = 3`, prime) and `B2 = 16`
(`d = ⌊√16⌋ = 4`, `2d = 8`), the first window `rr = 3` multiplies a factor for
the prime `q = 3 = rr` (violating the strict bound `rr < q`, with `δ = 0`),
and the prime `13 ∈ (11, 19]` contributes no factor in the window `rr = 11`
because the shared cursor's `take_while` discarded it at the previous window
boundary. -/
theorem C6_counterexample :
    Nat.sqrt 16 = 4 ∧
    ((3, 3) ∈ (stage2 1 ⟨0, 0, 0, 1⟩ 4 4 16).2 ∧ ¬(3 < 3)) ∧
    ((11, 13) ∉ (stage2 1 ⟨0, 0, 0, 1⟩ 4 4 16).2 ∧ Nat.Prime 13 ∧
      11 < 13 ∧ 13 ≤ 11 + 2 * 4) :=
  ⟨Nat.sqrt_eq' 4, ⟨by decide, by decide⟩, by decide, by decide, by decide,
    by decide⟩

/-- C6 (amended): the stage-2 product gains one factor exactly for each prime
pulled from the shared cursor while `q ≤ rr + 2d`; every such contributing
pair satisfies `b ≤ rr`, `rr ≤ q ≤ rr + 2d` and `δ = (q - rr)/2 ∈ [0, d]` —
but `δ = 0` (a prime `q = rr`) is possible in the first window when
`b = B1 - 1` is prime, and a prime of `(rr, rr + 2d]` may contribute nothing
because each window's final failing pull discards the first prime beyond its
upper limit. -/
theorem C6_amended_window_primes :
    ∀ (n : ℤ) (q : Point) (dd b1 b2 : ℕ) (rr qq : ℕ),
      (rr, qq) ∈ (stage2 n q dd b1 b2).2 →
      Nat.Prime qq ∧ b1 - 1 ≤ rr ∧ rr ≤ qq ∧ qq ≤ rr + 2 * dd ∧
        (qq - rr) / 2 ≤ dd := by
  intro n q dd b1 b2 rr qq h
  have := stage2_pairs_spec n q dd b1 b2 (rr, qq) h
  exact ⟨this.1, this.2.1, this.2.2.1, this.2.2.2, by omega⟩

/-- C6 witness: the pair `(rr, q) = (3, 5)` of the concrete stage-2 run. -/
theorem C6_witness :
    Nat.Prime 5 ∧ 4 - 1 ≤ 3 ∧ 3 ≤ 5 ∧ 5 ≤ 3 + 2 * 4 ∧ (5 - 3) / 2 ≤ 4 :=
  C6_amended_window_primes 1 ⟨0, 0, 0, 1⟩ 4 4 16 3 5 (by decide)

/-- C7: if `b1` or `b2` is odd, `ecm_one_factor` fails with `BoundsNotEven`
before any other processing: for every `n` (prime or not), every `max_curves`,
every random state, the result is the error with zero curves drawn. -/
theorem C7_bounds_check_first :
    ∀ (n : ℤ) (b1 b2 mc : ℕ) (o : ℕ → ℕ) (idx : ℕ),
      b1 % 2 ≠ 0 ∨ b2 % 2 ≠ 0 →
      ecmOneFactorAux n b1 b2 mc o idx = (.err .boundsNotEven, 0) ∧
      ecm_one_factor n b1 b2 mc o idx = .err .boundsNotEven := by
  intro n b1 b2 mc o idx h
  have ha : ecmOneFactorAux n b1 b2 mc o idx = (.err .boundsNotEven, 0) := by
    unfold ecmOneFactorAux
    rw [if_pos h]
  exact ⟨ha, by unfold ecm_one_factor; rw [ha]⟩

/-- C7 witness: odd `b1 = 3` on the prime input `7` gives `BoundsNotEven`
(so the check indeed precedes the primality test). -/
theorem C7_witness :
    ecmOneFactorAux 7 3 4 200 (fun _ => 0) 0 = (.err .boundsNotEven, 0) ∧
    ecm_one_factor 7 3 4 200 (fun _ => 0) 0 = .err .boundsNotEven :=
  C7_bounds_check_first 7 3 4 200 (fun _ => 0) 0 (by decide)

/-- C8 counterexample: for the prime `N = 5` with the odd bound `b1 = 3`,
`ecm_one_factor` signals `BoundsNotEven`, not `NumberIsPrime` — the claim's
quantification over *every* `b1, b2` fails because the bounds check runs
first. -/
theorem C8_counterexample :
    ecm_one_factor 5 3 4 200 (fun _ => 0) 0 = .err .boundsNotEven ∧
    ¬(ecm_one_factor 5 3 4 200 (fun _ => 0) 0 = .err .numberIsPrime) ∧
    Nat.Prime 5 :=
  ⟨by decide, by decide, by decide⟩

/-- C8 (amended): for every prime `N` and *even* bounds `b1, b2`,
`ecm_one_factor` signals `NumberIsPrime` (for every `max_curves` and random
state), with zero curves drawn. -/
theorem C8_amended_prime_signal :
    ∀ (n : ℤ) (b1 b2 mc : ℕ) (o : ℕ → ℕ) (idx : ℕ),
      Nat.Prime n.natAbs → b1 % 2 = 0 → b2 % 2 = 0 →
      ecmOneFactorAux n b1 b2 mc o idx = (.err .numberIsPrime, 0) ∧
      ecm_one_factor n b1 b2 mc o idx = .err .numberIsPrime := by
  intro n b1 b2 mc o idx hp h1 h2
  have ha : ecmOneFactorAux n b1 b2 mc o idx = (.err .numberIsPrime, 0) := by
    unfold ecmOneFactorAux
    rw [if_neg (by omega), if_pos (show isProbablyPrime n = true from by
      unfold isProbablyPrime; exact decide_eq_true hp)]
  exact ⟨ha, by unfold ecm_one_factor; rw [ha]⟩

/-- C8 witness: prime `7` with even bounds gives `NumberIsPrime`. -/
theorem C8_witness :
    ecmOneFactorAux 7 4 6 200 (fun _ => 0) 0 = (.err .numberIsPrime, 0) ∧
    ecm_one_factor 7 4 6 200 (fun _ => 0) 0 = .err .numberIsPrime :=
  C8_amended_prime_signal 7 4 6 200 (fun _ => 0) 0 (by norm_num) (by decide)
    (by decide)

/-- C9 counterexample: on the negative input `N = -1` (even bounds, default-
style parameters) the driver does not return an error: it panics — the
residual `-1` fails the primality test and `random_below` is called with the
non-positive bound `-2`. -/
theorem C9_counterexample :
    ecm_with_params (-1) 2 2 0 (fun _ => 0) 5 = some .panic ∧
    notErr (ecm_with_params (-1) 2 2 0 (fun _ => 0) 5) = true := by
  have h := driver_neg_one 2 2 0 (fun _ => 0) 5 rfl rfl (by omega)
  exact ⟨h, by rw [h]; rfl⟩

/-- C9 (amended): for `N = 1` the driver returns the empty mapping; but
negative inputs are *not* rejected with an error — there is no sign check,
and a negative residual reaching the curve loop panics in `random_below`
(shown here for `N = -1` with any even bounds). -/
theorem C9_amended_small_inputs :
    ∀ (b1 b2 mc : ℕ) (o : ℕ → ℕ) (fuel : ℕ), 1 ≤ fuel →
      ecm_with_params 1 b1 b2 mc o fuel = some (.ok []) ∧
      (b1 % 2 = 0 → b2 % 2 = 0 →
        ecm_with_params (-1) b1 b2 mc o fuel = some .panic) := by
  intro b1 b2 mc o fuel hf
  exact ⟨driver_one b1 b2 mc o fuel hf,
    fun h1 h2 => driver_neg_one b1 b2 mc o fuel h1 h2 hf⟩

/-- C9 witness: the amended statement at concrete parameters. -/
theorem C9_witness :
    ecm_with_params 1 4 6 200 (fun _ => 0) 3 = some (.ok []) ∧
    (4 % 2 = 0 → 6 % 2 = 0 →
      ecm_with_params (-1) 4 6 200 (fun _ => 0) 3 = some .panic) :=
  C9_amended_small_inputs 4 6 200 (fun _ => 0) 3 (by omega)

/-- C10: `ecm_with_params` (and hence `ecm`) never returns an `Err` value on
any input on which it terminates — every failure of `ecm_one_factor` is
absorbed by `unwrap_or(n)`, so the caller always receives an `Ok` mapping
(or the run panics / diverges, but no error variant propagates out). -/
theorem C10_no_error_escapes :
    ∀ (n : ℤ) (b1 b2 mc : ℕ) (o : ℕ → ℕ) (fuel : ℕ),
      notErr (ecm_with_params n b1 b2 mc o fuel) = true ∧
      notErr (ecm n o fuel) = true := by
  intro n b1 b2 mc o fuel
  exact ⟨ecm_with_params_notErr n b1 b2 mc o fuel,
    ecm_with_params_notErr n (optimal_b1 (decimalDigits n)) 100000 200 o fuel⟩

end EcmRs
